import Mathlib

set_option maxRecDepth 100000

/-!
# Verification of the pngme chunk codec (`src/chunk.rs`)

Shallow embedding of the `Chunk` component of the pngme repository.
Bytes are modelled as `Nat` values below 256, byte buffers as `List Nat`,
and the 32-bit machine arithmetic of the Rust source is made explicit with
`% 2 ^ 32` truncation.  Rust panics (out-of-bounds slicing, subtraction
underflow) are modelled explicitly: fallible accessors return `Option`
(`none` = the Rust code panics) and raw-byte parsing returns a three-way
outcome (`ok`, `err`, `crashed`, the last modelling a panic).
-/

namespace Pngme

/-! ## Big-endian 32-bit encoding (`u32::to_be_bytes` / `u32::from_be_bytes`) -/

/-- `u32::to_be_bytes` applied to `n` truncated to 32 bits (`as u32`):
the four big-endian bytes of `n % 2^32`. -/
def u32be (n : Nat) : List Nat :=
  [n / 2 ^ 24 % 256, n / 2 ^ 16 % 256, n / 2 ^ 8 % 256, n % 256]

/-- `u32::from_be_bytes`: big-endian decoding of a byte list. -/
def u32beDecode (l : List Nat) : Nat :=
  l.foldl (fun a b => a * 256 + b) 0

/-- A list whose entries are bytes (below 256). -/
def IsBytes (v : List Nat) : Prop :=
  ∀ b ∈ v, b < 256

instance (v : List Nat) : Decidable (IsBytes v) :=
  List.decidableBAll _ v

/-! ## CRC-32/ISO-HDLC (`Crc::<u32>::new(&crc::CRC_32_ISO_HDLC).checksum`)

The bit-at-a-time form of the algorithm computed by the `crc` crate's
table-driven implementation: reflected polynomial `0xEDB88320`, initial
value `0xFFFFFFFF`, final XOR `0xFFFFFFFF`. -/

/-- One bit step of the reflected CRC-32 computation. -/
def crcBit (c : Nat) : Nat :=
  if c % 2 = 1 then Nat.xor (c / 2) 0xEDB88320 else c / 2

/-- One byte step: XOR the byte into the low bits, then eight bit steps. -/
def crcByteStep (c b : Nat) : Nat :=
  crcBit (crcBit (crcBit (crcBit (crcBit (crcBit (crcBit (crcBit (Nat.xor c (b % 256)))))))))

/-- Fold the byte steps over a buffer starting from state `c`. -/
def crcUpdate (c : Nat) (bs : List Nat) : Nat :=
  bs.foldl crcByteStep c

/-- `checksum`: the CRC-32/ISO-HDLC of a byte buffer. -/
def crc32 (bs : List Nat) : Nat :=
  Nat.xor (crcUpdate 0xFFFFFFFF bs) 0xFFFFFFFF

/-! ## ChunkType

`src/chunk_type.rs` is not part of the provided sources; only `chunk.rs`
uses it.  Modelled from the spec: a ChunkType stores exactly 4 bytes
(`bytes` returns them); it is *valid* when all 4 bytes are ASCII letters;
its textual rendering "produces the original 4 ASCII characters (case
preserved) — used both for display and as the literal bytes embedded in a
Chunk", so `toStringBytes` returns the stored bytes. -/

structure ChunkType where
  b0 : Nat
  b1 : Nat
  b2 : Nat
  b3 : Nat
deriving DecidableEq

/-- Modelled from the spec: `ChunkType::bytes` returns the stored 4 bytes. -/
def ChunkType.bytes (t : ChunkType) : List Nat :=
  [t.b0, t.b1, t.b2, t.b3]

/-- An ASCII letter byte (`A`–`Z` or `a`–`z`). -/
def isAsciiAlpha (b : Nat) : Bool :=
  (65 ≤ b && b ≤ 90) || (97 ≤ b && b ≤ 122)

/-- Modelled from the spec: a ChunkType is valid iff all 4 bytes are ASCII
letters. -/
def ChunkType.isValid (t : ChunkType) : Bool :=
  isAsciiAlpha t.b0 && isAsciiAlpha t.b1 && isAsciiAlpha t.b2 && isAsciiAlpha t.b3

/-- Modelled from the spec: the byte content of `ChunkType::to_string` —
"the original 4 ASCII characters (case preserved)", i.e. the stored bytes. -/
def ChunkType.toStringBytes (t : ChunkType) : List Nat :=
  t.bytes

/-! ## UTF-8 (validation performed by `String::from_utf8`)

`Chunk::data_as_string` delegates to the Rust standard library's UTF-8
validation.  `utf8Decode` embeds that validation/decoding: it accepts
exactly the byte sequences that are well-formed UTF-8 (shortest-form
encodings of Unicode scalar values: code points below `0x110000` excluding
the surrogate range `0xD800..0xE000`), returning the decoded code points.
`encodeChar`/`utf8Encode` give the declarative description of well-formed
UTF-8 used to specify it. -/

/-- A Unicode scalar value: below `0x110000` and not a surrogate. -/
def isScalar (c : Nat) : Bool :=
  c < 0xD800 || (0xE000 ≤ c && c < 0x110000)

/-- A UTF-8 continuation byte (`0x80..0xC0`). -/
def isCont (b : Nat) : Bool :=
  0x80 ≤ b && b < 0xC0

/-- The UTF-8 encoding of one scalar value. -/
def encodeChar (c : Nat) : List Nat :=
  if c < 0x80 then [c]
  else if c < 0x800 then [0xC0 + c / 64, 0x80 + c % 64]
  else if c < 0x10000 then [0xE0 + c / 4096, 0x80 + c / 64 % 64, 0x80 + c % 64]
  else [0xF0 + c / 262144, 0x80 + c / 4096 % 64, 0x80 + c / 64 % 64, 0x80 + c % 64]

/-- The UTF-8 encoding of a sequence of scalar values. -/
def utf8Encode (cs : List Nat) : List Nat :=
  (cs.map encodeChar).flatten

/-- A byte sequence is valid UTF-8: it is the encoding of some sequence of
Unicode scalar values. -/
def IsUtf8 (bs : List Nat) : Prop :=
  ∃ cs : List Nat, (∀ c ∈ cs, isScalar c = true) ∧ utf8Encode cs = bs

/-- Constraint on the first continuation byte of a 3-byte sequence: lead
`0xE0` forbids overlong forms, lead `0xED` forbids surrogates. -/
def cont3Ok (b b1 : Nat) : Bool :=
  if b = 0xE0 then decide (0xA0 ≤ b1) && decide (b1 < 0xC0)
  else if b = 0xED then decide (0x80 ≤ b1) && decide (b1 < 0xA0)
  else isCont b1

/-- Constraint on the first continuation byte of a 4-byte sequence: lead
`0xF0` forbids overlong forms, lead `0xF4` forbids values above `0x10FFFF`. -/
def cont4Ok (b b1 : Nat) : Bool :=
  if b = 0xF0 then decide (0x90 ≤ b1) && decide (b1 < 0xC0)
  else if b = 0xF4 then decide (0x80 ≤ b1) && decide (b1 < 0x90)
  else isCont b1

/-- UTF-8 validation and decoding as performed by `String::from_utf8`:
rejects continuation-byte leads, overlong forms (`0xC0`/`0xC1`, and the
`0xE0`/`0xF0` second-byte restrictions), surrogates (`0xED` second-byte
restriction) and code points above `0x10FFFF` (`0xF4` second-byte
restriction, leads `0xF5..`).  Lookahead bytes are read with `getD` under
an explicit length guard; the recursion drops the consumed bytes. -/
def utf8Decode (l : List Nat) : Option (List Nat) :=
  match l with
  | [] => some []
  | b :: bs =>
    if b < 0x80 then (utf8Decode bs).map (b :: ·)
    else if b < 0xC2 then none
    else if b < 0xE0 then
      if 1 ≤ bs.length ∧ isCont (bs.getD 0 0) = true then
        (utf8Decode (bs.drop 1)).map (((b - 0xC0) * 64 + (bs.getD 0 0 - 0x80)) :: ·)
      else none
    else if b < 0xF0 then
      if 2 ≤ bs.length ∧ (cont3Ok b (bs.getD 0 0) && isCont (bs.getD 1 0)) = true then
        (utf8Decode (bs.drop 2)).map
          (((b - 0xE0) * 4096 + (bs.getD 0 0 - 0x80) * 64 + (bs.getD 1 0 - 0x80)) :: ·)
      else none
    else if b < 0xF5 then
      if 3 ≤ bs.length ∧
          (cont4Ok b (bs.getD 0 0) && isCont (bs.getD 1 0) && isCont (bs.getD 2 0)) = true then
        (utf8Decode (bs.drop 3)).map
          (((b - 0xF0) * 262144 + (bs.getD 0 0 - 0x80) * 4096 +
            (bs.getD 1 0 - 0x80) * 64 + (bs.getD 2 0 - 0x80)) :: ·)
      else none
    else none
termination_by l.length
decreasing_by
  all_goals simp only [List.length_cons, List.length_drop]
  all_goals omega

/-! ## Chunk -/

/-- `struct Chunk(Vec<u8>)`: a chunk is its backing byte buffer. -/
structure Chunk where
  buf : List Nat
deriving DecidableEq

/-- `Chunk::new(chunk_type, data)`: builds the backing buffer
`(data.len() as u32).to_be_bytes() ++ chunk_type.to_string().as_bytes()
 ++ data ++ checksum(chunk_type.bytes() ++ data).to_be_bytes()`. -/
def Chunk.new (t : ChunkType) (data : List Nat) : Chunk :=
  ⟨u32be data.length ++ t.toStringBytes ++ data ++ u32be (crc32 (t.bytes ++ data))⟩

/-- `Chunk::length`: big-endian decoding of bytes `0..4` of the buffer. -/
def Chunk.length (c : Chunk) : Nat :=
  u32beDecode (c.buf.take 4)

/-- `Chunk::data`: the slice `self.0[8..length+8]`.  `none` models the Rust
panic when the slice range `8..length+8` exceeds the buffer. -/
def Chunk.data (c : Chunk) : Option (List Nat) :=
  if c.length + 8 ≤ c.buf.length then some ((c.buf.drop 8).take c.length)
  else none

/-- `Chunk::crc`: recomputes `checksum(self.0[4..length+8])` on every call.
`none` models the Rust panic when the slice range exceeds the buffer. -/
def Chunk.crc (c : Chunk) : Option Nat :=
  if c.length + 8 ≤ c.buf.length then
    some (crc32 ((c.buf.drop 4).take (c.length + 4)))
  else none

/-- `Chunk::chunk_type`: reads bytes `4..8` of the buffer (the
`copy_from_slice` panics — `none` — when the buffer is shorter than 8). -/
def Chunk.chunkType (c : Chunk) : Option ChunkType :=
  if 8 ≤ c.buf.length then
    some ⟨c.buf.getD 4 0, c.buf.getD 5 0, c.buf.getD 6 0, c.buf.getD 7 0⟩
  else none

/-- `Chunk::data_as_string`: `String::from_utf8(self.data().to_vec())`.
The outer `Option` models the panic inherited from `Chunk::data`; the
inner `Except` is the `Result<String, FromUtf8Error>` of the source, with
the string modelled as its list of Unicode scalar values. -/
def Chunk.dataAsString (c : Chunk) : Option (Except Unit (List Nat)) :=
  c.data.map fun bs =>
    match utf8Decode bs with
    | some cs => .ok cs
    | none => .error ()

/-- `Chunk::as_bytes`: a copy of the whole backing buffer. -/
def Chunk.asBytes (c : Chunk) : List Nat :=
  c.buf

/-- Outcome of `Chunk::try_from(&[u8])`: a constructed chunk, the typed
`"Invalid crc checks"` error, or a Rust panic (`crashed`). -/
inductive TryFromResult where
  | ok (c : Chunk)
  | err
  | crashed
deriving DecidableEq

/-- `<Chunk as TryFrom<&[u8]>>::try_from`.  For `value.len() < 8` the Rust
code panics (`value.len() - 4` underflows or `remainder[4..]` is out of
bounds); otherwise it splits off the last 4 bytes as the claimed CRC,
recomputes the checksum of `remainder[4..]` and compares. -/
def Chunk.tryFrom (value : List Nat) : TryFromResult :=
  if value.length < 8 then .crashed
  else if crc32 ((value.take (value.length - 4)).drop 4) =
      u32beDecode (value.drop (value.length - 4)) then .ok ⟨value⟩
  else .err

/-! ## Shared concrete values (the repository's own test vectors) -/

/-- The `"RuSt"` chunk type of the repository's tests. -/
def rustType : ChunkType := ⟨82, 117, 83, 116⟩

/-- The bytes of `"This is where your secret message will be!"` (42 bytes). -/
def secretMsg : List Nat :=
  [84, 104, 105, 115, 32, 105, 115, 32, 119, 104, 101, 114, 101, 32, 121, 111,
   117, 114, 32, 115, 101, 99, 114, 101, 116, 32, 109, 101, 115, 115, 97, 103,
   101, 32, 119, 105, 108, 108, 32, 98, 101, 33]

/-- The serialized test chunk with the correct trailing CRC `2882656334`. -/
def goodChunkBytes : List Nat :=
  [0, 0, 0, 42] ++ [82, 117, 83, 116] ++ secretMsg ++ [171, 209, 216, 78]

/-- The serialized test chunk with the wrong trailing CRC `2882656333`. -/
def badChunkBytes : List Nat :=
  [0, 0, 0, 42] ++ [82, 117, 83, 116] ++ secretMsg ++ [171, 209, 216, 77]

/-- An 8-byte buffer of zeros: its last 4 bytes decode to `0`, the CRC-32 of
the empty byte sequence, so `Chunk::try_from` accepts it. -/
def zeroChunkBytes : List Nat :=
  [0, 0, 0, 0, 0, 0, 0, 0]

/-!
# Theorems
-/

/-! ## Basic facts about the encoding helpers -/

theorem u32be_length (n : Nat) : (u32be n).length = 4 := rfl

theorem u32beDecode_u32be (n : Nat) : u32beDecode (u32be n) = n % 2 ^ 32 := by
  simp only [u32be, u32beDecode, List.foldl]
  omega

theorem u32beDecode_u32be_of_lt {n : Nat} (h : n < 2 ^ 32) :
    u32beDecode (u32be n) = n := by
  rw [u32beDecode_u32be, Nat.mod_eq_of_lt h]

theorem crcBit_lt {c : Nat} (h : c < 2 ^ 32) : crcBit c < 2 ^ 32 := by
  unfold crcBit
  split
  · exact Nat.xor_lt_two_pow (by omega) (by norm_num)
  · omega

theorem crcByteStep_lt {c : Nat} (b : Nat) (h : c < 2 ^ 32) :
    crcByteStep c b < 2 ^ 32 := by
  unfold crcByteStep
  have h0 : Nat.xor c (b % 256) < 2 ^ 32 :=
    Nat.xor_lt_two_pow h (lt_of_lt_of_le (Nat.mod_lt b (by norm_num)) (by norm_num))
  exact crcBit_lt (crcBit_lt (crcBit_lt (crcBit_lt (crcBit_lt (crcBit_lt
    (crcBit_lt (crcBit_lt h0)))))))

theorem crcUpdate_lt {c : Nat} (bs : List Nat) (h : c < 2 ^ 32) :
    crcUpdate c bs < 2 ^ 32 := by
  induction bs generalizing c with
  | nil => exact h
  | cons b bs ih => exact ih (crcByteStep_lt b h)

theorem crc32_lt (bs : List Nat) : crc32 bs < 2 ^ 32 := by
  unfold crc32
  exact Nat.xor_lt_two_pow (crcUpdate_lt bs (by norm_num)) (by norm_num)

/-! ## Structure of buffers built by `Chunk::new` -/

theorem Chunk.new_buf (t : ChunkType) (d : List Nat) :
    (Chunk.new t d).buf =
      (u32be d.length ++ t.toStringBytes ++ d) ++ u32be (crc32 (t.bytes ++ d)) := by
  simp [Chunk.new, List.append_assoc]

theorem Chunk.new_buf_length (t : ChunkType) (d : List Nat) :
    (Chunk.new t d).buf.length = d.length + 12 := by
  simp only [Chunk.new, List.length_append, ChunkType.toStringBytes, ChunkType.bytes,
    u32be, List.length_cons, List.length_nil]
  omega

theorem Chunk.new_length (t : ChunkType) (d : List Nat) :
    (Chunk.new t d).length = d.length % 2 ^ 32 := by
  have : (Chunk.new t d).buf.take 4 = u32be d.length := by
    rw [Chunk.new]
    show (u32be d.length ++ (t.toStringBytes ++ (d ++ u32be (crc32 (t.bytes ++ d))))).take 4 = _
    exact List.take_left' rfl
  rw [Chunk.length, this, u32beDecode_u32be]

/-- Parsing a buffer built by `Chunk::new` succeeds and returns a chunk with
the very same backing buffer. -/
theorem Chunk.tryFrom_new (t : ChunkType) (d : List Nat) :
    Chunk.tryFrom (Chunk.new t d).asBytes = .ok (Chunk.new t d) := by
  have hbuf := Chunk.new_buf t d
  have hlen := Chunk.new_buf_length t d
  have hfrontlen : (u32be d.length ++ t.toStringBytes ++ d).length = d.length + 8 := by
    simp [ChunkType.toStringBytes, ChunkType.bytes, u32be]
  rw [Chunk.tryFrom, Chunk.asBytes]
  rw [if_neg (by omega)]
  have hsub : (Chunk.new t d).buf.length - 4 = d.length + 8 := by omega
  have htake : (Chunk.new t d).buf.take ((Chunk.new t d).buf.length - 4) =
      u32be d.length ++ t.toStringBytes ++ d := by
    rw [hsub, hbuf, List.take_left' hfrontlen]
  have hdrop : (Chunk.new t d).buf.drop ((Chunk.new t d).buf.length - 4) =
      u32be (crc32 (t.bytes ++ d)) := by
    rw [hsub, hbuf, List.drop_left' hfrontlen]
  rw [htake, hdrop]
  have hdrop4 : (u32be d.length ++ t.toStringBytes ++ d).drop 4 = t.toStringBytes ++ d := by
    show (u32be d.length ++ (t.toStringBytes ++ d)).drop 4 = _
    exact List.drop_left' rfl
  rw [hdrop4, u32beDecode_u32be_of_lt (crc32_lt _)]
  rw [if_pos (by rw [ChunkType.toStringBytes])]

/-- The slice `remainder[4..]` checked by `try_from` is the region between
the length field and the trailing CRC field. -/
theorem tryFrom_slice (v : List Nat) :
    (v.take (v.length - 4)).drop 4 = (v.drop 4).take (v.length - 8) := by
  rw [List.drop_take, Nat.sub_sub]

/-- `try_from` on an input of at least 8 bytes accepts (returning a chunk
backed by the input itself) exactly when the recomputed CRC of the region
between the length field and the trailing CRC field equals the decoded
trailing field. -/
theorem Chunk.tryFrom_ok_iff (v : List Nat) (h : 8 ≤ v.length) :
    Chunk.tryFrom v = .ok ⟨v⟩ ↔
      crc32 ((v.drop 4).take (v.length - 8)) = u32beDecode (v.drop (v.length - 4)) := by
  rw [Chunk.tryFrom, if_neg (by omega), tryFrom_slice]
  split
  · next hc => exact iff_of_true rfl hc
  · next hc => exact iff_of_false (by simp) hc

/-- `try_from` on an input of at least 8 bytes returns the CRC error exactly
when the recomputed CRC differs from the decoded trailing field. -/
theorem Chunk.tryFrom_err_iff (v : List Nat) (h : 8 ≤ v.length) :
    Chunk.tryFrom v = .err ↔
      crc32 ((v.drop 4).take (v.length - 8)) ≠ u32beDecode (v.drop (v.length - 4)) := by
  rw [Chunk.tryFrom, if_neg (by omega), tryFrom_slice]
  split
  · next hc => exact iff_of_false (by simp) (by simpa using hc)
  · next hc => exact iff_of_true rfl hc

/-! ## Claim theorems -/

/-- C1.  Round-trip law: for every byte payload `d` and every valid
ChunkType `t`, `Chunk::try_from(Chunk::new(t, d).as_bytes())` succeeds, and
the resulting chunk's `length()`, `chunk_type()`, `data()` and `crc()`
equal those of the chunk built by `Chunk::new(t, d)`. -/
theorem chunk_roundtrip (t : ChunkType) (d : List Nat) (hv : t.isValid = true) :
    ∃ c : Chunk, Chunk.tryFrom (Chunk.new t d).asBytes = .ok c ∧
      c.length = (Chunk.new t d).length ∧
      c.chunkType = (Chunk.new t d).chunkType ∧
      c.data = (Chunk.new t d).data ∧
      c.crc = (Chunk.new t d).crc :=
  ⟨Chunk.new t d, Chunk.tryFrom_new t d, rfl, rfl, rfl, rfl⟩

/-- Witness for C1 at the repository's own test vector. -/
theorem chunk_roundtrip_witness :
    ∃ c : Chunk, Chunk.tryFrom (Chunk.new rustType secretMsg).asBytes = .ok c ∧
      c.length = (Chunk.new rustType secretMsg).length ∧
      c.chunkType = (Chunk.new rustType secretMsg).chunkType ∧
      c.data = (Chunk.new rustType secretMsg).data ∧
      c.crc = (Chunk.new rustType secretMsg).crc :=
  chunk_roundtrip rustType secretMsg (by decide)

/-- C2 (code bug).  The claimed invariant fails: `Chunk::try_from` accepts
the 8-byte all-zero buffer (its trailing 4 bytes decode to 0, the CRC-32 of
the empty region between offset 4 and the trailing field), producing a
chunk whose backing buffer has 8 bytes instead of `length() + 12 = 12`, and
whose trailing 4 stored bytes (value 0) differ from the CRC-32 over the
chunk-type bytes `[0,0,0,0]` concatenated with `data() = []`, which is
`558161692`. -/
theorem chunk_invariant_violated :
    Chunk.tryFrom zeroChunkBytes = .ok ⟨zeroChunkBytes⟩ ∧
    (Chunk.mk zeroChunkBytes).buf.length ≠ Chunk.length ⟨zeroChunkBytes⟩ + 12 ∧
    Chunk.chunkType ⟨zeroChunkBytes⟩ = some ⟨0, 0, 0, 0⟩ ∧
    Chunk.data ⟨zeroChunkBytes⟩ = some [] ∧
    u32beDecode ((Chunk.mk zeroChunkBytes).buf.drop
      ((Chunk.mk zeroChunkBytes).buf.length - 4)) ≠
      crc32 (ChunkType.bytes ⟨0, 0, 0, 0⟩ ++ []) := by
  refine ⟨by decide, by decide, by decide, by decide, by decide⟩

/-- C3.  For inputs of length at least 12, `Chunk::try_from` fails with the
CRC-mismatch error iff the CRC-32/ISO-HDLC recomputed over bytes 4 up to
(excluding) the final 4 differs from the big-endian value stored in the
final 4 bytes; the test buffer with trailing CRC `2882656333` is rejected
while the one with the correct `2882656334` is accepted. -/
theorem tryFrom_crc_mismatch_iff :
    (∀ v : List Nat, 12 ≤ v.length → IsBytes v →
      (Chunk.tryFrom v = .err ↔
        crc32 ((v.drop 4).take (v.length - 8)) ≠ u32beDecode (v.drop (v.length - 4)))) ∧
    Chunk.tryFrom badChunkBytes = .err ∧
    Chunk.tryFrom goodChunkBytes = .ok ⟨goodChunkBytes⟩ := by
  refine ⟨fun v h _ => Chunk.tryFrom_err_iff v (by omega), by decide, by decide⟩

/-- Witness for C3: the general equivalence applied to the concrete buffer
whose trailing 4 bytes encode `2882656333`. -/
theorem tryFrom_crc_mismatch_iff_witness :
    Chunk.tryFrom badChunkBytes = .err ↔
      crc32 ((badChunkBytes.drop 4).take (badChunkBytes.length - 8)) ≠
        u32beDecode (badChunkBytes.drop (badChunkBytes.length - 4)) :=
  tryFrom_crc_mismatch_iff.1 badChunkBytes (by decide) (by decide)

/-- C4 (code bug).  Parsing is not total: on every input shorter than 8
bytes (in particular the empty input and all of lengths 0 through 7)
`Chunk::try_from` panics (`value.len() - 4` underflows, or the slice
`remainder[4..]` is out of bounds) instead of returning a typed error. -/
theorem tryFrom_short_input_crashes :
    Chunk.tryFrom [] = .crashed ∧
    Chunk.tryFrom [0, 0, 0, 0, 0, 0, 0] = .crashed ∧
    (∀ v : List Nat, v.length < 8 → Chunk.tryFrom v = .crashed) := by
  exact ⟨rfl, rfl, fun v h => by rw [Chunk.tryFrom, if_pos h]⟩

/-- Witness for C4 at a concrete 3-byte input. -/
theorem tryFrom_short_input_crashes_witness :
    Chunk.tryFrom [1, 2, 3] = .crashed :=
  tryFrom_short_input_crashes.2.2 [1, 2, 3] (by decide)

/-- C5 (counterexample).  The chunk built from the `"RuSt"` type and the
bytes of `"This is where your secret message will be!"` has `length()`
equal to 42 — the message is 42 bytes long, not 44 as the claim states
(the repository's own `test_new_chunk` asserts 42). -/
theorem new_chunk_length_ne_44 :
    ¬ (Chunk.length (Chunk.new rustType secretMsg) = 44 ∧
       Chunk.crc (Chunk.new rustType secretMsg) = some 2882656334) := by
  intro h
  have := h.1
  revert this
  decide

/-- C5 (amended).  The chunk built from the `"RuSt"` type and the 42-byte
message has `length() = 42` and `crc() = 2882656334`. -/
theorem new_chunk_concrete :
    Chunk.length (Chunk.new rustType secretMsg) = 42 ∧
    Chunk.crc (Chunk.new rustType secretMsg) = some 2882656334 := by
  exact ⟨by decide, by decide⟩

/-- C6 (counterexample).  `Chunk::new` does not reject payloads longer than
`u32::MAX`: `data.len() as u32` truncates, so a payload of `2^32` zero
bytes yields `length() = 0`, not the true byte count. -/
theorem new_length_truncates :
    Chunk.length (Chunk.new rustType (List.replicate (2 ^ 32) 0)) ≠
      (List.replicate (2 ^ 32) 0).length := by
  rw [Chunk.new_length, List.length_replicate]
  norm_num

/-- C6 (amended).  `Chunk::new` stores `length = data.len() mod 2^32`
(truncation, not rejection); for every payload of fewer than `2^32` bytes
`length()` equals the exact byte count. -/
theorem new_length_exact :
    (∀ (t : ChunkType) (d : List Nat),
      Chunk.length (Chunk.new t d) = d.length % 2 ^ 32) ∧
    (∀ (t : ChunkType) (d : List Nat), d.length < 2 ^ 32 →
      Chunk.length (Chunk.new t d) = d.length) := by
  refine ⟨fun t d => Chunk.new_length t d, fun t d h => ?_⟩
  rw [Chunk.new_length, Nat.mod_eq_of_lt h]

/-- Witness for C6 (amended) at the repository's test vector. -/
theorem new_length_exact_witness :
    Chunk.length (Chunk.new rustType secretMsg) = secretMsg.length :=
  new_length_exact.2 rustType secretMsg (by decide)

/-- C7.  Serialized byte layout: `Chunk::new(t, d).as_bytes()` is the
4-byte big-endian encoding of `d`'s length, then `t`'s 4 bytes, then `d`,
then the 4-byte big-endian CRC-32/ISO-HDLC of `t`'s bytes ++ `d` — a
`4+4+N+4`-byte buffer; and a chunk accepted by `Chunk::try_from` serializes
back to exactly the input bytes it was parsed from. -/
theorem as_bytes_layout :
    (∀ (t : ChunkType) (d : List Nat), t.isValid = true →
      (Chunk.new t d).asBytes =
        u32be d.length ++ t.bytes ++ d ++ u32be (crc32 (t.bytes ++ d)) ∧
      (Chunk.new t d).asBytes.length = d.length + 12) ∧
    (∀ (v : List Nat) (c : Chunk), Chunk.tryFrom v = .ok c → c.asBytes = v) := by
  constructor
  · exact fun t d _ => ⟨rfl, Chunk.new_buf_length t d⟩
  · intro v c h
    rw [Chunk.tryFrom] at h
    split at h
    · exact absurd h (by simp)
    · split at h
      · cases h
        rfl
      · exact absurd h (by simp)

/-- Witness for C7 at the repository's test vector. -/
theorem as_bytes_layout_witness :
    (Chunk.new rustType secretMsg).asBytes =
      u32be secretMsg.length ++ rustType.bytes ++ secretMsg ++
        u32be (crc32 (rustType.bytes ++ secretMsg)) ∧
    (Chunk.new rustType secretMsg).asBytes.length = secretMsg.length + 12 :=
  as_bytes_layout.1 rustType secretMsg (by decide)

/-- C9.  `Chunk::try_from` enforces no minimum length of 12 and never
checks the declared length field: any input of length at least 8 is
accepted iff its trailing 4 bytes match the CRC-32/ISO-HDLC of bytes 4
through `len - 4`; in particular the 8-byte all-zero buffer (trailing CRC
0 = CRC of the empty sequence) is accepted as a chunk consisting of those
8 bytes alone. -/
theorem tryFrom_min_length_8 :
    (∀ v : List Nat, 8 ≤ v.length → IsBytes v →
      (Chunk.tryFrom v = .ok ⟨v⟩ ↔
        crc32 ((v.drop 4).take (v.length - 8)) = u32beDecode (v.drop (v.length - 4)))) ∧
    Chunk.tryFrom zeroChunkBytes = .ok ⟨zeroChunkBytes⟩ := by
  exact ⟨fun v h _ => Chunk.tryFrom_ok_iff v h, by decide⟩

/-- Witness for C9: the general acceptance equivalence applied to the
8-byte all-zero buffer. -/
theorem tryFrom_min_length_8_witness :
    Chunk.tryFrom zeroChunkBytes = .ok ⟨zeroChunkBytes⟩ ↔
      crc32 ((zeroChunkBytes.drop 4).take (zeroChunkBytes.length - 8)) =
        u32beDecode (zeroChunkBytes.drop (zeroChunkBytes.length - 4)) :=
  tryFrom_min_length_8.1 zeroChunkBytes (by decide) (by decide)

/-- C10.  `Chunk::crc` recomputes the checksum over bytes 4 through
`length() + 8` on each call and never reads the stored trailing CRC field:
replacing the 4 bytes that follow that region leaves `crc()` unchanged; and
for the accepted 8-byte all-zero buffer, whose length field is inconsistent
with the buffer's size, `crc()` is `558161692` — different from the value
0 that was validated at parse time (the decoded trailing field). -/
theorem crc_recomputed_each_call :
    (∀ pre a b : List Nat, a.length = 4 → b.length = 4 →
      Chunk.length ⟨pre ++ a⟩ + 8 ≤ pre.length →
      Chunk.crc ⟨pre ++ a⟩ = Chunk.crc ⟨pre ++ b⟩) ∧
    (Chunk.tryFrom zeroChunkBytes = .ok ⟨zeroChunkBytes⟩ ∧
     Chunk.crc ⟨zeroChunkBytes⟩ = some 558161692 ∧
     Chunk.crc ⟨zeroChunkBytes⟩ ≠
       some (u32beDecode (zeroChunkBytes.drop (zeroChunkBytes.length - 4)))) := by
  constructor
  · intro pre a b ha hb hle
    have hpre : 8 ≤ pre.length := le_trans (Nat.le_add_left 8 _) hle
    have htake : ∀ x : List Nat, (pre ++ x).take 4 = pre.take 4 :=
      fun x => List.take_append_of_le_length (by omega)
    have hLa : Chunk.length ⟨pre ++ a⟩ = u32beDecode (pre.take 4) :=
      congrArg u32beDecode (htake a)
    have hLb : Chunk.length ⟨pre ++ b⟩ = u32beDecode (pre.take 4) :=
      congrArg u32beDecode (htake b)
    have hle' : u32beDecode (pre.take 4) + 8 ≤ pre.length := hLa ▸ hle
    have hslice : ∀ x : List Nat,
        ((pre ++ x).drop 4).take (u32beDecode (pre.take 4) + 4) =
          (pre.drop 4).take (u32beDecode (pre.take 4) + 4) := by
      intro x
      rw [List.drop_append_of_le_length (by omega),
        List.take_append_of_le_length (by rw [List.length_drop]; omega)]
    simp only [Chunk.crc, hLa, hLb]
    rw [if_pos (by rw [List.length_append]; omega),
      if_pos (by rw [List.length_append]; omega), hslice a, hslice b]
  · exact ⟨by decide, by decide, by decide⟩

/-- Witness for C10: replacing the trailing 4 bytes of a chunk whose length
field is 0 does not change `crc()`. -/
theorem crc_recomputed_each_call_witness :
    Chunk.crc ⟨[0, 0, 0, 0, 65, 66, 67, 68] ++ [1, 2, 3, 4]⟩ =
      Chunk.crc ⟨[0, 0, 0, 0, 65, 66, 67, 68] ++ [5, 6, 7, 8]⟩ :=
  crc_recomputed_each_call.1 [0, 0, 0, 0, 65, 66, 67, 68] [1, 2, 3, 4] [5, 6, 7, 8]
    (by decide) (by decide) (by decide)

/-! ## Correctness of the embedded UTF-8 validation

`utf8Decode` succeeds exactly on well-formed UTF-8 (the image of
`utf8Encode` on scalar values), and decoding inverts encoding. -/

/-- Decoding the encoding of one scalar value prepended to any byte tail
consumes exactly the encoding and decodes it back to the scalar. -/
theorem utf8Decode_encodeChar (c : Nat) (rest : List Nat) (h : isScalar c = true) :
    utf8Decode (encodeChar c ++ rest) = (utf8Decode rest).map (c :: ·) := by
  have hs : c < 0xD800 ∨ (0xE000 ≤ c ∧ c < 0x110000) := by
    unfold isScalar at h
    simp only [Bool.or_eq_true, Bool.and_eq_true, decide_eq_true_eq] at h
    omega
  rw [encodeChar]
  by_cases h1 : c < 0x80
  · rw [if_pos h1]
    show utf8Decode (c :: rest) = _
    rw [utf8Decode, if_pos h1]
  · rw [if_neg h1]
    by_cases h2 : c < 0x800
    · rw [if_pos h2]
      show utf8Decode ((0xC0 + c / 64) :: ((0x80 + c % 64) :: rest)) = _
      rw [utf8Decode]
      rw [if_neg (by omega), if_neg (by omega), if_pos (by omega)]
      rw [if_pos ?hc2]
      case hc2 =>
        refine ⟨by simp only [List.length_cons]; omega, ?_⟩
        simp only [List.getD_cons_zero]
        unfold isCont
        simp only [Bool.and_eq_true, decide_eq_true_eq]
        omega
      simp only [List.getD_cons_zero, List.drop_succ_cons, List.drop_zero]
      have hv : (0xC0 + c / 64 - 0xC0) * 64 + (0x80 + c % 64 - 0x80) = c := by omega
      rw [hv]
    · rw [if_neg h2]
      by_cases h3 : c < 0x10000
      · rw [if_pos h3]
        show utf8Decode
            ((0xE0 + c / 4096) :: ((0x80 + c / 64 % 64) :: ((0x80 + c % 64) :: rest))) = _
        rw [utf8Decode]
        rw [if_neg (by omega), if_neg (by omega), if_neg (by omega), if_pos (by omega)]
        rw [if_pos ?hc3]
        case hc3 =>
          refine ⟨by simp only [List.length_cons]; omega, ?_⟩
          simp only [List.getD_cons_zero, List.getD_cons_succ]
          rw [Bool.and_eq_true]
          constructor
          · unfold cont3Ok
            split
            · next he => simp only [Bool.and_eq_true, decide_eq_true_eq]; omega
            · split
              · next he hd => simp only [Bool.and_eq_true, decide_eq_true_eq]; omega
              · next he hd =>
                  unfold isCont
                  simp only [Bool.and_eq_true, decide_eq_true_eq]
                  omega
          · unfold isCont
            simp only [Bool.and_eq_true, decide_eq_true_eq]
            omega
        simp only [List.getD_cons_zero, List.getD_cons_succ, List.drop_succ_cons,
          List.drop_zero]
        have hv : (0xE0 + c / 4096 - 0xE0) * 4096 + (0x80 + c / 64 % 64 - 0x80) * 64 +
            (0x80 + c % 64 - 0x80) = c := by omega
        rw [hv]
      · rw [if_neg h3]
        show utf8Decode ((0xF0 + c / 262144) :: ((0x80 + c / 4096 % 64) ::
            ((0x80 + c / 64 % 64) :: ((0x80 + c % 64) :: rest)))) = _
        rw [utf8Decode]
        rw [if_neg (by omega), if_neg (by omega), if_neg (by omega), if_neg (by omega),
          if_pos (by omega)]
        rw [if_pos ?hc4]
        case hc4 =>
          refine ⟨by simp only [List.length_cons]; omega, ?_⟩
          simp only [List.getD_cons_zero, List.getD_cons_succ]
          rw [Bool.and_eq_true, Bool.and_eq_true]
          refine ⟨⟨?_, ?_⟩, ?_⟩
          · unfold cont4Ok
            split
            · next he => simp only [Bool.and_eq_true, decide_eq_true_eq]; omega
            · split
              · next he hd => simp only [Bool.and_eq_true, decide_eq_true_eq]; omega
              · next he hd =>
                  unfold isCont
                  simp only [Bool.and_eq_true, decide_eq_true_eq]
                  omega
          · unfold isCont
            simp only [Bool.and_eq_true, decide_eq_true_eq]
            omega
          · unfold isCont
            simp only [Bool.and_eq_true, decide_eq_true_eq]
            omega
        simp only [List.getD_cons_zero, List.getD_cons_succ, List.drop_succ_cons,
          List.drop_zero]
        have hv : (0xF0 + c / 262144 - 0xF0) * 262144 + (0x80 + c / 4096 % 64 - 0x80) * 4096 +
            (0x80 + c / 64 % 64 - 0x80) * 64 + (0x80 + c % 64 - 0x80) = c := by omega
        rw [hv]

/-- Decoding inverts encoding on every sequence of scalar values
(completeness of the validation). -/
theorem utf8Decode_utf8Encode (cs : List Nat) (h : ∀ c ∈ cs, isScalar c = true) :
    utf8Decode (utf8Encode cs) = some cs := by
  induction cs with
  | nil =>
    show utf8Decode [] = some []
    rw [utf8Decode]
  | cons c cs ih =>
    have hc : isScalar c = true := h c (by simp)
    have hrest : ∀ x ∈ cs, isScalar x = true := fun x hx => h x (by simp [hx])
    have he : utf8Encode (c :: cs) = encodeChar c ++ utf8Encode cs := by
      simp [utf8Encode]
    rw [he, utf8Decode_encodeChar c _ hc, ih hrest]
    rfl

theorem utf8Encode_cons (c : Nat) (cs : List Nat) :
    utf8Encode (c :: cs) = encodeChar c ++ utf8Encode cs := by
  simp [utf8Encode]

/-- Any successful decode returns scalar values whose encoding is the input
(soundness of the validation). -/
theorem utf8Decode_sound (bs : List Nat) : ∀ cs, utf8Decode bs = some cs →
    utf8Encode cs = bs ∧ ∀ c ∈ cs, isScalar c = true := by
  induction bs using utf8Decode.induct with
  | case1 =>
    intro cs h
    rw [utf8Decode] at h
    simp only [Option.some.injEq] at h
    subst h
    exact ⟨rfl, by simp⟩
  | case2 b bs hb ih =>
    intro cs h
    rw [utf8Decode, if_pos hb, Option.map_eq_some'] at h
    obtain ⟨cs', hdec, rfl⟩ := h
    obtain ⟨henc, hsc⟩ := ih cs' hdec
    refine ⟨?_, ?_⟩
    · rw [utf8Encode_cons, henc, encodeChar, if_pos hb]
      rfl
    · intro x hx
      rcases List.mem_cons.mp hx with rfl | hmem
      · unfold isScalar
        simp only [Bool.or_eq_true, Bool.and_eq_true, decide_eq_true_eq]
        omega
      · exact hsc x hmem
  | case3 b bs h1 h2 =>
    intro cs h
    rw [utf8Decode, if_neg h1, if_pos h2] at h
    exact absurd h (by simp)
  | case4 b bs h1 h2 h3 hc ih =>
    intro cs h
    obtain ⟨b1, bs1, rfl⟩ : ∃ b1 bs1, bs = b1 :: bs1 := by
      cases bs with
      | nil => exact absurd hc.1 (by simp)
      | cons x xs => exact ⟨x, xs, rfl⟩
    rw [utf8Decode, if_neg h1, if_neg h2, if_pos h3, if_pos hc] at h
    simp only [List.getD_cons_zero, List.drop_succ_cons, List.drop_zero] at h ih hc
    have hb1 : 0x80 ≤ b1 ∧ b1 < 0xC0 := by
      have hcc := hc.2
      unfold isCont at hcc
      simp only [Bool.and_eq_true, decide_eq_true_eq] at hcc
      exact hcc
    rw [Option.map_eq_some'] at h
    obtain ⟨cs', hdec, rfl⟩ := h
    obtain ⟨henc, hsc⟩ := ih cs' hdec
    refine ⟨?_, ?_⟩
    · rw [utf8Encode_cons, henc, encodeChar, if_neg (by omega), if_pos (by omega)]
      simp only [List.cons_append, List.nil_append, List.cons.injEq]
      refine ⟨by omega, by omega, trivial⟩
    · intro x hx
      rcases List.mem_cons.mp hx with rfl | hmem
      · unfold isScalar
        simp only [Bool.or_eq_true, Bool.and_eq_true, decide_eq_true_eq]
        omega
      · exact hsc x hmem
  | case5 b bs h1 h2 h3 hc =>
    intro cs h
    rw [utf8Decode, if_neg h1, if_neg h2, if_pos h3, if_neg hc] at h
    exact absurd h (by simp)
  | case6 b bs h1 h2 h3 h4 hc ih =>
    intro cs h
    obtain ⟨b1, b2, bs2, rfl⟩ : ∃ b1 b2 bs2, bs = b1 :: b2 :: bs2 := by
      cases bs with
      | nil => exact absurd hc.1 (by simp)
      | cons x xs =>
        cases xs with
        | nil => exact absurd hc.1 (by simp)
        | cons y ys => exact ⟨x, y, ys, rfl⟩
    rw [utf8Decode, if_neg h1, if_neg h2, if_neg h3, if_pos h4, if_pos hc] at h
    simp only [List.getD_cons_zero, List.getD_cons_succ, List.drop_succ_cons,
      List.drop_zero] at h ih hc
    have hcc := hc.2
    simp only [Bool.and_eq_true] at hcc
    have hb2 : 0x80 ≤ b2 ∧ b2 < 0xC0 := by
      have hc2 := hcc.2
      unfold isCont at hc2
      simp only [Bool.and_eq_true, decide_eq_true_eq] at hc2
      exact hc2
    have hb1 : 0x80 ≤ b1 ∧ b1 < 0xC0 ∧ (b = 0xE0 → 0xA0 ≤ b1) ∧ (b = 0xED → b1 < 0xA0) := by
      have hc1 := hcc.1
      unfold cont3Ok at hc1
      split at hc1
      · next he => simp only [Bool.and_eq_true, decide_eq_true_eq] at hc1; omega
      · split at hc1
        · next he hd => simp only [Bool.and_eq_true, decide_eq_true_eq] at hc1; omega
        · next he hd =>
            unfold isCont at hc1
            simp only [Bool.and_eq_true, decide_eq_true_eq] at hc1
            omega
    rw [Option.map_eq_some'] at h
    obtain ⟨cs', hdec, rfl⟩ := h
    obtain ⟨henc, hsc⟩ := ih cs' hdec
    refine ⟨?_, ?_⟩
    · rw [utf8Encode_cons, henc, encodeChar, if_neg (by omega), if_neg (by omega),
        if_pos (by omega)]
      simp only [List.cons_append, List.nil_append, List.cons.injEq]
      refine ⟨by omega, by omega, by omega, trivial⟩
    · intro x hx
      rcases List.mem_cons.mp hx with rfl | hmem
      · unfold isScalar
        simp only [Bool.or_eq_true, Bool.and_eq_true, decide_eq_true_eq]
        omega
      · exact hsc x hmem
  | case7 b bs h1 h2 h3 h4 hc =>
    intro cs h
    rw [utf8Decode, if_neg h1, if_neg h2, if_neg h3, if_pos h4, if_neg hc] at h
    exact absurd h (by simp)
  | case8 b bs h1 h2 h3 h4 h5 hc ih =>
    intro cs h
    obtain ⟨b1, b2, b3, bs3, rfl⟩ : ∃ b1 b2 b3 bs3, bs = b1 :: b2 :: b3 :: bs3 := by
      cases bs with
      | nil => exact absurd hc.1 (by simp)
      | cons x xs =>
        cases xs with
        | nil => exact absurd hc.1 (by simp)
        | cons y ys =>
          cases ys with
          | nil => exact absurd hc.1 (by simp)
          | cons z zs => exact ⟨x, y, z, zs, rfl⟩
    rw [utf8Decode, if_neg h1, if_neg h2, if_neg h3, if_neg h4, if_pos h5, if_pos hc] at h
    simp only [List.getD_cons_zero, List.getD_cons_succ, List.drop_succ_cons,
      List.drop_zero] at h ih hc
    have hcc := hc.2
    simp only [Bool.and_eq_true] at hcc
    have hb2 : 0x80 ≤ b2 ∧ b2 < 0xC0 := by
      have hx := hcc.1.2
      unfold isCont at hx
      simp only [Bool.and_eq_true, decide_eq_true_eq] at hx
      exact hx
    have hb3 : 0x80 ≤ b3 ∧ b3 < 0xC0 := by
      have hx := hcc.2
      unfold isCont at hx
      simp only [Bool.and_eq_true, decide_eq_true_eq] at hx
      exact hx
    have hb1 : 0x80 ≤ b1 ∧ b1 < 0xC0 ∧ (b = 0xF0 → 0x90 ≤ b1) ∧ (b = 0xF4 → b1 < 0x90) := by
      have hc1 := hcc.1.1
      unfold cont4Ok at hc1
      split at hc1
      · next he => simp only [Bool.and_eq_true, decide_eq_true_eq] at hc1; omega
      · split at hc1
        · next he hd => simp only [Bool.and_eq_true, decide_eq_true_eq] at hc1; omega
        · next he hd =>
            unfold isCont at hc1
            simp only [Bool.and_eq_true, decide_eq_true_eq] at hc1
            omega
    rw [Option.map_eq_some'] at h
    obtain ⟨cs', hdec, rfl⟩ := h
    obtain ⟨henc, hsc⟩ := ih cs' hdec
    refine ⟨?_, ?_⟩
    · rw [utf8Encode_cons, henc, encodeChar, if_neg (by omega), if_neg (by omega),
        if_neg (by omega)]
      simp only [List.cons_append, List.nil_append, List.cons.injEq]
      refine ⟨by omega, by omega, by omega, by omega, trivial⟩
    · intro x hx
      rcases List.mem_cons.mp hx with rfl | hmem
      · unfold isScalar
        simp only [Bool.or_eq_true, Bool.and_eq_true, decide_eq_true_eq]
        omega
      · exact hsc x hmem
  | case9 b bs h1 h2 h3 h4 h5 hc =>
    intro cs h
    rw [utf8Decode, if_neg h1, if_neg h2, if_neg h3, if_neg h4, if_pos h5, if_neg hc] at h
    exact absurd h (by simp)
  | case10 b bs h1 h2 h3 h4 h5 =>
    intro cs h
    rw [utf8Decode, if_neg h1, if_neg h2, if_neg h3, if_neg h4, if_neg h5] at h
    exact absurd h (by simp)

/-- C8 (counterexample).  The claim does not hold for every Chunk: parsing
accepts the 8-byte buffer `[0,0,0,1,0,0,0,0]` (its trailing CRC matches the
CRC of the empty region), but the resulting chunk's stored length field 1
makes the `data()` slice `8..9` exceed the 8-byte buffer, so
`data_as_string` panics instead of either succeeding or failing with a
UTF-8 decode error. -/
theorem dataAsString_can_crash :
    Chunk.tryFrom [0, 0, 0, 1, 0, 0, 0, 0] = .ok ⟨[0, 0, 0, 1, 0, 0, 0, 0]⟩ ∧
    Chunk.dataAsString ⟨[0, 0, 0, 1, 0, 0, 0, 0]⟩ = none := by
  exact ⟨by decide, by rfl⟩

/-- C8 (amended).  For every Chunk whose `data()` call is in bounds (does
not panic), `data_as_string` succeeds and returns the payload decoded as
text — a sequence of scalar values that encodes back to exactly `data()` —
iff `data()` is a valid UTF-8 byte sequence, and fails with the UTF-8
decode error otherwise.  (The function reads only the payload and never
alters the chunk: in the embedding it is a pure function of `data()`.) -/
theorem dataAsString_utf8_iff :
    ∀ (c : Chunk) (bs : List Nat), c.data = some bs →
      ((∃ s, c.dataAsString = some (.ok s) ∧ utf8Encode s = bs) ↔ IsUtf8 bs) ∧
      (c.dataAsString = some (.error ()) ↔ ¬ IsUtf8 bs) := by
  intro c bs hd
  have hds : c.dataAsString =
      some (match utf8Decode bs with
            | some cs => Except.ok cs
            | none => Except.error ()) := by
    rw [Chunk.dataAsString, hd]
    rfl
  cases hdec : utf8Decode bs with
  | some cs =>
    obtain ⟨henc, hsc⟩ := utf8Decode_sound bs cs hdec
    rw [hdec] at hds
    constructor
    · constructor
      · rintro ⟨s, _, _⟩
        exact ⟨cs, hsc, henc⟩
      · intro _
        exact ⟨cs, by rw [hds], henc⟩
    · constructor
      · intro hcon
        rw [hds] at hcon
        simp at hcon
      · intro hn
        exact absurd ⟨cs, hsc, henc⟩ hn
  | none =>
    rw [hdec] at hds
    have hnot : ¬ IsUtf8 bs := by
      rintro ⟨cs, hsc, henc⟩
      rw [← henc, utf8Decode_utf8Encode cs hsc] at hdec
      exact absurd hdec (by simp)
    constructor
    · constructor
      · rintro ⟨s, hsok, _⟩
        rw [hds] at hsok
        simp at hsok
      · intro hu
        exact absurd hu hnot
    · exact ⟨fun _ => hnot, fun _ => hds⟩

/-- Witness for C8 (amended) at the repository's test chunk, whose payload
is the 42-byte ASCII message. -/
theorem dataAsString_utf8_iff_witness :
    ((∃ s, (Chunk.new rustType secretMsg).dataAsString = some (.ok s) ∧
        utf8Encode s = secretMsg) ↔ IsUtf8 secretMsg) ∧
    ((Chunk.new rustType secretMsg).dataAsString = some (.error ()) ↔
      ¬ IsUtf8 secretMsg) :=
  dataAsString_utf8_iff (Chunk.new rustType secretMsg) secretMsg (by decide)

end Pngme
